import Mathlib

set_option maxHeartbeats 1000000

/-!
Shallow embedding of the SearchAlgorithms repository (Board.py, Solver.py):
a sliding-tile puzzle state type with successor generation, a Manhattan
heuristic, the fringe family (FIFO queue, LIFO stack, `insort_left`-based
priority queue with statistics bookkeeping), and the fuel-indexed
graph-search driver that BFS, DFS, GBFS and A* instantiate.
-/

namespace SearchAlgos

/-- The blank tile symbol (the space character in the Python source). -/
def blankChar : Char := ' '

/-- A board's tile string, modelled as a list of characters. -/
abbrev Tiles := List Char

/-- `SlideBoard` objects from Board.py: tile string, board width `n`, the
blank's linear index, search-tree depth, optional parent link, and the
lazily cached heuristic value (`None` until `generate_heuristic`). -/
inductive SlideBoard : Type where
  | mk : Tiles → Nat → Nat → Nat → Option SlideBoard → Option Int → SlideBoard

namespace SlideBoard

/-- Accessor for the `tiles` property. -/
def tiles : SlideBoard → Tiles
  | mk t _ _ _ _ _ => t

/-- Accessor for the `n` (board width) property. -/
def n : SlideBoard → Nat
  | mk _ w _ _ _ _ => w

/-- Accessor for the private `_space_ind` field (the blank's index). -/
def spaceInd : SlideBoard → Nat
  | mk _ _ i _ _ _ => i

/-- Accessor for the `depth` property. -/
def depth : SlideBoard → Nat
  | mk _ _ _ d _ _ => d

/-- Accessor for the `parent` property. -/
def parent : SlideBoard → Option SlideBoard
  | mk _ _ _ _ p _ => p

/-- Accessor for the `heuristic` property. -/
def heuristic : SlideBoard → Option Int
  | mk _ _ _ _ _ h => h

/-- Board.py `SlideBoard.create`: the validation checks in source order
(`n <= 0`; `len(str_rep) != n * n`; no blank present; `len(set(str_rep))
!= len(str_rep)`, i.e. a duplicate symbol), then construction with the
blank's first index, depth 0 and no parent. -/
def create (strRep : Tiles) (nArg : Int) : Except String SlideBoard :=
  if nArg ≤ 0 then .error "Board size must be positive."
  else if (strRep.length : Int) ≠ nArg * nArg then
    .error "An n x n board must specify n^2 spaces."
  else if blankChar ∉ strRep then
    .error "A board must include a blank space (space key)."
  else if ¬ strRep.Nodup then
    .error "A board must have no duplicate tiles."
  else .ok (mk strRep nArg.toNat (strRep.indexOf blankChar) 0 none none)

/-- The Python slice expression
`tiles[:lo] + tiles[hi] + tiles[lo+1:hi] + tiles[lo] + tiles[hi+1:]`
from `_space_move`, which swaps the entries at positions `lo < hi`. -/
def sliceSwap (l : Tiles) (lo hi : Nat) : Tiles :=
  l.take lo ++ [l.getD hi blankChar] ++ (l.drop (lo + 1)).take (hi - (lo + 1))
    ++ [l.getD lo blankChar] ++ l.drop (hi + 1)

/-- Board.py `SlideBoard._space_move`: `None` on an illegal move, otherwise
a child board with the blank and its target swapped, the new blank index,
depth + 1 and the current board as parent. -/
def spaceMove (b : SlideBoard) (check : Bool) (newPos : Nat) : Option SlideBoard :=
  if !check then none
  else
    some (mk (sliceSwap b.tiles (min b.spaceInd newPos) (max b.spaceInd newPos))
      b.n newPos (b.depth + 1) (some b) none)

/-- Board.py `space_up`: legal iff `space_ind >= n`, target `space_ind - n`. -/
def space_up (b : SlideBoard) : Option SlideBoard :=
  b.spaceMove (decide (b.n ≤ b.spaceInd)) (b.spaceInd - b.n)

/-- Board.py `space_down`: legal iff `space_ind < n^2 - n`, target `space_ind + n`. -/
def space_down (b : SlideBoard) : Option SlideBoard :=
  b.spaceMove (decide (b.spaceInd < b.n ^ 2 - b.n)) (b.spaceInd + b.n)

/-- Board.py `space_left`: legal iff `space_ind % n != 0`, target `space_ind - 1`. -/
def space_left (b : SlideBoard) : Option SlideBoard :=
  b.spaceMove (decide (b.spaceInd % b.n ≠ 0)) (b.spaceInd - 1)

/-- Board.py `space_right`: legal iff `space_ind % n != n - 1`, target `space_ind + 1`. -/
def space_right (b : SlideBoard) : Option SlideBoard :=
  b.spaceMove (decide (b.spaceInd % b.n ≠ b.n - 1)) (b.spaceInd + 1)

/-- One tile's contribution in `_manhattan_distance`: with row-major
coordinates extracted by `divmod(ind, w)`, the value `|y2 - y1| + |x2 - x1|`
for current index `ind` and goal index `jnd`. -/
def tileDist (w ind jnd : Nat) : Int :=
  (((jnd / w : Nat) : Int) - ((ind / w : Nat) : Int)).natAbs
    + (((jnd % w : Nat) : Int) - ((ind % w : Nat) : Int)).natAbs

/-- The `enumerate` loop of `_manhattan_distance`: the blank contributes 0,
every other tile contributes `tileDist` against its first index in the goal
tile string. -/
def mdAux (w : Nat) (goalTiles : Tiles) : Nat → Tiles → Int
  | _, [] => 0
  | ind, t :: rest =>
    (if t = blankChar then 0 else tileDist w ind (goalTiles.indexOf t))
      + mdAux w goalTiles (ind + 1) rest

/-- Board.py `_manhattan_distance(first, second)`; both coordinate
extractions use `first.n`, as in the source. -/
def manhattan_distance (first second : SlideBoard) : Int :=
  mdAux first.n second.tiles 0 first.tiles

/-- Board.py `generate_heuristic`: stores `_manhattan_distance(self, goal)`
in the heuristic field. -/
def generate_heuristic (b goal : SlideBoard) : SlideBoard :=
  match b with
  | mk t w i d p _ => mk t w i d p (some (manhattan_distance b goal))

/-- Board.py `__eq__`: boards of the same type compare by `tiles` only. -/
def beq (a b : SlideBoard) : Bool := a.tiles == b.tiles

/-- Board.py `__hash__`: the hash of the `tiles` string. -/
def hashVal (a : SlideBoard) : UInt64 := hash a.tiles

/-- The solution path printed by Tester.py `_print_solution`: the tile
strings along the parent chain, in root-to-goal order. -/
def pathTiles : SlideBoard → List Tiles
  | mk t _ _ _ none _ => [t]
  | mk t _ _ _ (some p) _ => pathTiles p ++ [t]

end SlideBoard

/-- `bisect.insort_left` on a list kept sorted in non-decreasing `key`
order: the new element is placed before every element of equal key. -/
def insortLeft {α : Type} (key : α → Int) (x : α) : List α → List α
  | [] => [x]
  | y :: ys => if key x ≤ key y then x :: y :: ys else y :: insortLeft key x ys

/-- `list.pop()`: removes and returns the rightmost element, if any. -/
def popRight {α : Type} (l : List α) : Option (α × List α) :=
  match l.getLast? with
  | none => none
  | some x => some (x, l.dropLast)

/-- The strategy-specific part of a Fringe subclass from Solver.py:
the `_uses_heuristic` flag, the empty container, `__len__`, `_add`
and `_remove` (the latter total via `Option`; it is only invoked on a
non-empty container). -/
structure FringeOps (σ : Type) where
  uses_heuristic : Bool
  emptyImpl : σ
  sizeImpl : σ → Nat
  addImpl : σ → SlideBoard → σ
  removeImpl : σ → Option (SlideBoard × σ)

/-- The mutable statistics state of a `Fringe`: the container, the
`_num_created` counter (initially −1 so the root is not counted), and the
`_max_fringe` high-water mark. -/
structure FringeState (σ : Type) where
  inner : σ
  num_created : Int
  max_fringe : Nat

/-- The state established by `Fringe.__init__`. -/
def Fringe.init {σ : Type} (ops : FringeOps σ) : FringeState σ :=
  ⟨ops.emptyImpl, -1, 0⟩

/-- Solver.py `Fringe.add(state, goal)`: generate the heuristic if the
strategy uses one, insert, bump `_num_created`, update `_max_fringe`. -/
def Fringe.add {σ : Type} (ops : FringeOps σ) (fs : FringeState σ)
    (state goal : SlideBoard) : FringeState σ :=
  let st := if ops.uses_heuristic then state.generate_heuristic goal else state
  let inner := ops.addImpl fs.inner st
  let sz := ops.sizeImpl inner
  ⟨inner, fs.num_created + 1, if fs.max_fringe < sz then sz else fs.max_fringe⟩

/-- Solver.py `Fringe.remove`: `None` when empty, else `_remove()`. -/
def Fringe.remove {σ : Type} (ops : FringeOps σ) (fs : FringeState σ) :
    Option (SlideBoard × FringeState σ) :=
  if ops.sizeImpl fs.inner ≠ 0 then
    (ops.removeImpl fs.inner).map (fun p => (p.1, ⟨p.2, fs.num_created, fs.max_fringe⟩))
  else none

/-- Solver.py `Queue`: deque append on the right, popleft on the left. -/
def queueOps : FringeOps (List SlideBoard) where
  uses_heuristic := false
  emptyImpl := []
  sizeImpl := List.length
  addImpl := fun l s => l ++ [s]
  removeImpl := fun l =>
    match l with
    | [] => none
    | x :: xs => some (x, xs)

/-- Solver.py `Stack`: list append on the right, pop from the right. -/
def stackOps : FringeOps (List SlideBoard) where
  uses_heuristic := false
  emptyImpl := []
  sizeImpl := List.length
  addImpl := fun l s => l ++ [s]
  removeImpl := popRight

/-- Solver.py `PriorityQueue(f)`: `insort_left` with the negated scoring
function as key (so the list is descending in `f`), pop from the right. -/
def pqOps (f : SlideBoard → Int) : FringeOps (List SlideBoard) where
  uses_heuristic := true
  emptyImpl := []
  sizeImpl := List.length
  addImpl := fun l s => insortLeft (fun st => -(f st)) s l
  removeImpl := popRight

/-- The result tuple of `_graph_search`:
`(node, depth, numCreated, numExpanded, maxFringe)`. -/
structure SearchResult where
  node : Option SlideBoard
  depth : Int
  num_created : Int
  num_expanded : Nat
  max_fringe : Nat

/-- Solver.py `_try_add`: add the successor only if the move was legal and
the state is not in the expanded set (membership is by tile string, per
`SlideBoard.__eq__`/`__hash__`). -/
def try_add {σ : Type} (ops : FringeOps σ) (fs : FringeState σ)
    (expanded : List Tiles) (goal : SlideBoard) : Option SlideBoard → FringeState σ
  | none => fs
  | some nd => if nd.tiles ∈ expanded then fs else Fringe.add ops fs nd goal

/-- The `while fringe:` loop of `_graph_search`, indexed by fuel: `none`
means the fuel ran out before the loop finished; `some r` is the result the
Python loop returns. The expanded set is the list of expanded boards' tile
strings. -/
def graph_search_loop {σ : Type} (ops : FringeOps σ) (goal : SlideBoard) :
    Nat → FringeState σ → List Tiles → Option SearchResult
  | 0, _, _ => none
  | fuel + 1, fs, expanded =>
    match Fringe.remove ops fs with
    | none => some ⟨none, -1, 0, 0, 0⟩
    | some (node, fs') =>
      if node.tiles ∈ expanded then graph_search_loop ops goal fuel fs' expanded
      else if node.tiles = goal.tiles then
        some ⟨some node, (node.depth : Int), fs'.num_created, expanded.length,
          fs'.max_fringe⟩
      else
        let expanded2 := node.tiles :: expanded
        let fs1 := try_add ops fs' expanded2 goal node.space_up
        let fs2 := try_add ops fs1 expanded2 goal node.space_down
        let fs3 := try_add ops fs2 expanded2 goal node.space_left
        let fs4 := try_add ops fs3 expanded2 goal node.space_right
        graph_search_loop ops goal fuel fs4 expanded2

/-- Solver.py `_graph_search`: empty expanded set, the start state added
first (not counted for `num_created`), then the loop. -/
def graph_search {σ : Type} (ops : FringeOps σ) (start goal : SlideBoard)
    (fuel : Nat) : Option SearchResult :=
  graph_search_loop ops goal fuel (Fringe.add ops (Fringe.init ops) start goal) []

/-- Solver.py `BFS`. -/
def BFS (s g : SlideBoard) (fuel : Nat) : Option SearchResult :=
  graph_search queueOps s g fuel

/-- Solver.py `DFS`. -/
def DFS (s g : SlideBoard) (fuel : Nat) : Option SearchResult :=
  graph_search stackOps s g fuel

/-- The GBFS scoring function `f(n) = h(n)` (reads the cached heuristic,
which `Fringe.add` has always set before insertion). -/
def gbfsF (st : SlideBoard) : Int := st.heuristic.getD 0

/-- The A* scoring function `f(n) = g(n) + h(n)`. -/
def astarF (st : SlideBoard) : Int := (st.depth : Int) + st.heuristic.getD 0

/-- Solver.py `GBFS`. -/
def GBFS (s g : SlideBoard) (fuel : Nat) : Option SearchResult :=
  graph_search (pqOps gbfsF) s g fuel

/-- Solver.py `AStar`. -/
def AStar (s g : SlideBoard) (fuel : Nat) : Option SearchResult :=
  graph_search (pqOps astarF) s g fuel

/-! ### Ghost-instrumented model of `PriorityQueue`

To state the stable tie-break property, each stored entry is paired with
its insertion index (a ghost timestamp the Python object does not store);
the container operations are exactly those of `PriorityQueue`:
`insort_left` with the negated scoring function as key, and `pop()`. -/

/-- An operation on a fringe container: insert a value, or remove one
(removal on an empty container is the no-op `Fringe.remove` does). -/
inductive PQOp (α : Type) where
  | add : α → PQOp α
  | remove : PQOp α

/-- One `PriorityQueue` operation on (next timestamp, timestamped list). -/
def pqStep {α : Type} (f : α → Int) :
    Nat × List (Nat × α) → PQOp α → Nat × List (Nat × α)
  | (t, l), .add x => (t + 1, insortLeft (fun p => -(f p.2)) (t, x) l)
  | (t, l), .remove =>
    match popRight l with
    | none => (t, l)
    | some p => (t, p.2)

/-- Run a sequence of `PriorityQueue` operations from the empty queue. -/
def pqRun {α : Type} (f : α → Int) (ops : List (PQOp α)) : Nat × List (Nat × α) :=
  ops.foldl (pqStep f) (0, [])

/-! ### Operation-sequence model of the `Fringe` statistics -/

/-- An operation performed on a fringe by the driver: `add` (with the
state to insert) or `remove`. -/
inductive FOp where
  | add : SlideBoard → FOp
  | remove : FOp

/-- One driver-visible fringe operation acting on the fringe state. -/
def fringeStep {σ : Type} (ops : FringeOps σ) (goal : SlideBoard)
    (fs : FringeState σ) : FOp → FringeState σ
  | .add b => Fringe.add ops fs b goal
  | .remove =>
    match Fringe.remove ops fs with
    | none => fs
    | some p => p.2

/-- Run a sequence of fringe operations. -/
def runFringe {σ : Type} (ops : FringeOps σ) (goal : SlideBoard)
    (l : List FOp) (fs : FringeState σ) : FringeState σ :=
  l.foldl (fringeStep ops goal) fs

/-- The fringe sizes reached after each operation of the sequence. -/
def futureSizes {σ : Type} (ops : FringeOps σ) (goal : SlideBoard) :
    List FOp → FringeState σ → List Nat
  | [], _ => []
  | op :: rest, fs =>
    let fs' := fringeStep ops goal fs op
    ops.sizeImpl fs'.inner :: futureSizes ops goal rest fs'

/-- The number of `add` operations in a sequence. -/
def countAdds : List FOp → Nat
  | [] => 0
  | FOp.add _ :: r => countAdds r + 1
  | FOp.remove :: r => countAdds r

/-! ### Spec-side definitions and validity -/

/-- The class invariant of a constructed `SlideBoard`: positive width,
`n * n` tiles, and the blank stored at `spaceInd`. -/
def Valid (b : SlideBoard) : Prop :=
  0 < b.n ∧ b.tiles.length = b.n * b.n ∧ b.spaceInd < b.n * b.n
    ∧ b.tiles.getD b.spaceInd blankChar = blankChar

instance validDecidable (b : SlideBoard) : Decidable (Valid b) :=
  inferInstanceAs (Decidable (0 < b.n ∧ b.tiles.length = b.n * b.n
    ∧ b.spaceInd < b.n * b.n ∧ b.tiles.getD b.spaceInd blankChar = blankChar))

/-- The tile string with the entries at positions `i` and `j` exchanged
(the spec's "tiles with the blank and the target symbol swapped"). -/
def swapTiles (l : Tiles) (i j : Nat) : Tiles :=
  (l.set i (l.getD j blankChar)).set j (l.getD i blankChar)

/-- Modelled from the spec: "for each non-blank symbol, locate its
row/column in `this` and in `goal` (by linear scan or an equivalent
index), accumulate `|Δrow| + |Δcol|`" — a direct sum over the non-blank
entries of the board. -/
def specManhattan (first second : SlideBoard) : Int :=
  ((first.tiles.enum.filter (fun p => p.2 ≠ blankChar)).map (fun p =>
    ((((second.tiles.indexOf p.2 / first.n : Nat) : Int)
        - ((p.1 / first.n : Nat) : Int)).natAbs : Int)
      + (((second.tiles.indexOf p.2 % first.n : Nat) : Int)
        - ((p.1 % first.n : Nat) : Int)).natAbs)).sum

/-- The legal successor states of a board, in the driver's fixed
up/down/left/right order. -/
def legalMoves (b : SlideBoard) : List SlideBoard :=
  [b.space_up, b.space_down, b.space_left, b.space_right].filterMap id

/-! ### The concrete 2 by 2 instances used in the spec's examples -/

/-- The 2 by 2 start board with tile string `"21 3"`. -/
def start21 : SlideBoard := .mk ['2','1',' ','3'] 2 2 0 none none

/-- The 2 by 2 goal board with tile string `"213 "`. -/
def goal2 : SlideBoard := .mk ['2','1','3',' '] 2 3 0 none none

/-- The 2 by 2 board with tile string `"123 "`; it is in the other
solvability class than `goal2`, so searching exhausts the fringe. -/
def start123 : SlideBoard := .mk ['1','2','3',' '] 2 3 0 none none

/-! ### List helper lemmas for the swap characterisation -/

/-- Writing back an entry's own value leaves the list unchanged. -/
theorem set_getD_self : ∀ (l : Tiles) (i : Nat), i < l.length →
    l.set i (l.getD i blankChar) = l
  | [], i, h => by simp at h
  | a :: xs, 0, _ => by simp
  | a :: xs, i + 1, h => by
    have ih := set_getD_self xs i (by simpa using h)
    simpa [List.getD_eq_getElem?_getD] using ih

/-- The slice expression of `_space_move` is the exchange of the entries
at `lo` and `hi`. -/
theorem sliceSwap_eq_swapTiles : ∀ (l : Tiles) (i j : Nat), i < j → j < l.length →
    SlideBoard.sliceSwap l i j = swapTiles l i j
  | [], _, j, _, hj => by simp at hj
  | a :: xs, 0, j + 1, _, hj => by
    have hk : j < xs.length := by simpa using hj
    simp [SlideBoard.sliceSwap, swapTiles, List.getD_eq_getElem?_getD,
      List.getElem?_eq_getElem hk, List.set_eq_take_cons_drop _ hk]
  | a :: xs, i + 1, j + 1, hij, hj => by
    have ih := sliceSwap_eq_swapTiles xs i j (by omega) (by simpa using hj)
    simpa [SlideBoard.sliceSwap, swapTiles, Nat.succ_sub_succ] using ih

/-- Exchanging an entry with the head is a permutation. -/
theorem getD_cons_set_perm : ∀ (l : Tiles) (k : Nat) (a : Char), k < l.length →
    (l.getD k blankChar :: l.set k a).Perm (a :: l)
  | [], k, _, h => by simp at h
  | b :: t, 0, a, _ => by simpa using List.Perm.swap a b t
  | b :: t, k + 1, a, h => by
    have ih := getD_cons_set_perm t k a (by simpa using h)
    have p1 : (t.getD k blankChar :: b :: t.set k a).Perm
        (b :: t.getD k blankChar :: t.set k a) := List.Perm.swap b (t.getD k blankChar) _
    have p2 : (b :: t.getD k blankChar :: t.set k a).Perm (b :: a :: t) := ih.cons b
    have p3 : (b :: a :: t).Perm (a :: b :: t) := List.Perm.swap a b t
    simpa using (p1.trans p2).trans p3

/-- Exchanging two entries is a permutation of the list. -/
theorem swapTiles_perm : ∀ (l : Tiles) (i j : Nat), i < j → j < l.length →
    (swapTiles l i j).Perm l
  | [], _, j, _, hj => by simp at hj
  | a :: xs, 0, j + 1, _, hj => by
    have hk : j < xs.length := by simpa using hj
    have h1 : swapTiles (a :: xs) 0 (j + 1) = xs.getD j blankChar :: xs.set j a := by
      simp [swapTiles]
    rw [h1]
    exact getD_cons_set_perm xs j a hk
  | a :: xs, i + 1, j + 1, hij, hj => by
    have ih := swapTiles_perm xs i j (by omega) (by simpa using hj)
    have h1 : swapTiles (a :: xs) (i + 1) (j + 1) = a :: swapTiles xs i j := by
      simp [swapTiles]
    rw [h1]
    exact ih.cons a

/-- Exchanging the same two entries twice restores the list. -/
theorem swapTiles_swapTiles (l : Tiles) (i j : Nat) (hij : i ≠ j)
    (hi : i < l.length) (hj : j < l.length) :
    swapTiles (swapTiles l i j) i j = l := by
  have hlen : (swapTiles l i j).length = l.length := by
    simp [swapTiles]
  have hgj : (swapTiles l i j).getD j blankChar = l.getD i blankChar := by
    show ((l.set i (l.getD j blankChar)).set j (l.getD i blankChar)).getD j blankChar
      = l.getD i blankChar
    rw [List.getD_eq_getElem?_getD, List.getElem?_set_self (by simpa using hj)]
    rfl
  have hgi : (swapTiles l i j).getD i blankChar = l.getD j blankChar := by
    show ((l.set i (l.getD j blankChar)).set j (l.getD i blankChar)).getD i blankChar
      = l.getD j blankChar
    rw [List.getD_eq_getElem?_getD, List.getElem?_set_ne hij.symm,
      List.getElem?_set_self hi]
    rfl
  rw [swapTiles, hgj, hgi]
  rw [swapTiles, List.set_comm _ _ _ hij.symm, List.set_set, List.set_set,
    set_getD_self l i hi, set_getD_self l j hj]

/-! ### Unfoldings of the four successor functions -/

/-- `space_up` on a legal position. -/
theorem space_up_some (b : SlideBoard) (h : b.n ≤ b.spaceInd) :
    b.space_up = some (.mk (SlideBoard.sliceSwap b.tiles (b.spaceInd - b.n) b.spaceInd)
      b.n (b.spaceInd - b.n) (b.depth + 1) (some b) none) := by
  simp [SlideBoard.space_up, SlideBoard.spaceMove, h,
    Nat.min_eq_right (Nat.sub_le _ _), Nat.max_eq_left (Nat.sub_le _ _)]

/-- `space_up` on an illegal position. -/
theorem space_up_none (b : SlideBoard) (h : ¬ b.n ≤ b.spaceInd) :
    b.space_up = none := by
  simp [SlideBoard.space_up, SlideBoard.spaceMove, h]

/-- `space_down` on a legal position. -/
theorem space_down_some (b : SlideBoard) (h : b.spaceInd < b.n ^ 2 - b.n) :
    b.space_down = some (.mk (SlideBoard.sliceSwap b.tiles b.spaceInd (b.spaceInd + b.n))
      b.n (b.spaceInd + b.n) (b.depth + 1) (some b) none) := by
  simp [SlideBoard.space_down, SlideBoard.spaceMove, h,
    Nat.min_eq_left (Nat.le_add_right _ _), Nat.max_eq_right (Nat.le_add_right _ _)]

/-- `space_down` on an illegal position. -/
theorem space_down_none (b : SlideBoard) (h : ¬ b.spaceInd < b.n ^ 2 - b.n) :
    b.space_down = none := by
  simp [SlideBoard.space_down, SlideBoard.spaceMove, h]

/-- `space_left` on a legal position. -/
theorem space_left_some (b : SlideBoard) (h : b.spaceInd % b.n ≠ 0) :
    b.space_left = some (.mk (SlideBoard.sliceSwap b.tiles (b.spaceInd - 1) b.spaceInd)
      b.n (b.spaceInd - 1) (b.depth + 1) (some b) none) := by
  simp [SlideBoard.space_left, SlideBoard.spaceMove, h,
    Nat.min_eq_right (Nat.sub_le _ _), Nat.max_eq_left (Nat.sub_le _ _)]

/-- `space_left` on an illegal position. -/
theorem space_left_none (b : SlideBoard) (h : ¬ b.spaceInd % b.n ≠ 0) :
    b.space_left = none := by
  simp [SlideBoard.space_left, SlideBoard.spaceMove, h]

/-- `space_right` on a legal position. -/
theorem space_right_some (b : SlideBoard) (h : b.spaceInd % b.n ≠ b.n - 1) :
    b.space_right = some (.mk (SlideBoard.sliceSwap b.tiles b.spaceInd (b.spaceInd + 1))
      b.n (b.spaceInd + 1) (b.depth + 1) (some b) none) := by
  simp [SlideBoard.space_right, SlideBoard.spaceMove, h,
    Nat.min_eq_left (Nat.le_succ _), Nat.max_eq_right (Nat.le_succ _)]

/-- `space_right` on an illegal position. -/
theorem space_right_none (b : SlideBoard) (h : ¬ b.spaceInd % b.n ≠ b.n - 1) :
    b.space_right = none := by
  simp [SlideBoard.space_right, SlideBoard.spaceMove, h]

/-! ### Edge arithmetic -/

/-- The bottom-row characterisation of the `space_down` legality check. -/
theorem down_edge {w s : Nat} (h0 : 0 < w) (hs : s < w * w) :
    s < w * w - w ↔ s / w ≠ w - 1 := by
  have h1 : s / w < w := by
    rw [Nat.div_lt_iff_lt_mul h0]
    omega
  have key : s / w < w - 1 ↔ s < w * w - w := by
    rw [Nat.div_lt_iff_lt_mul h0, Nat.sub_one_mul]
  constructor
  · intro hlt
    have := key.mpr hlt
    omega
  · intro hne
    exact key.mp (by omega)

/-- The last linear index has column `w - 1`. -/
theorem nn_pred_mod {w : Nat} (h0 : 0 < w) : (w * w - 1) % w = w - 1 := by
  have h3 : w * (w - 1) + (w - 1) + 1 = w * w := by
    cases w with
    | zero => omega
    | succ m =>
      have : (m + 1) * m + m + 1 = (m + 1) * (m + 1) := by ring
      simpa using this
  have h2 : w * w - 1 = w * (w - 1) + (w - 1) := by omega
  rw [h2, Nat.mul_add_mod]
  exact Nat.mod_eq_of_lt (by omega)

/-- A non-last-column position is not the final index. -/
theorem right_bound {w s : Nat} (h0 : 0 < w) (hs : s < w * w) (hm : s % w ≠ w - 1) :
    s + 1 < w * w := by
  by_contra hcon
  have hs1 : s = w * w - 1 := by omega
  rw [hs1] at hm
  exact hm (nn_pred_mod h0)

/-- **C2** For every valid state and every direction, the move returns a
new state iff the blank is not on the board edge the move would cross
(top, bottom, leftmost or rightmost row/column of the blank's coordinates);
a successful move swaps the blank with the target symbol (hence preserves
the multiset of symbols), moves the blank index by ±1 or ±n, increments
`depth` by one, and records the receiver as `parent`. -/
theorem c2_move_spec (b : SlideBoard) (h : Valid b) :
    (((b.space_up).isSome ↔ b.spaceInd / b.n ≠ 0)
      ∧ ∀ b', b.space_up = some b' →
          b'.tiles = swapTiles b.tiles (b.spaceInd - b.n) b.spaceInd
          ∧ b'.tiles.Perm b.tiles ∧ b'.spaceInd = b.spaceInd - b.n
          ∧ b'.depth = b.depth + 1 ∧ b'.parent = some b)
    ∧ (((b.space_down).isSome ↔ b.spaceInd / b.n ≠ b.n - 1)
      ∧ ∀ b', b.space_down = some b' →
          b'.tiles = swapTiles b.tiles b.spaceInd (b.spaceInd + b.n)
          ∧ b'.tiles.Perm b.tiles ∧ b'.spaceInd = b.spaceInd + b.n
          ∧ b'.depth = b.depth + 1 ∧ b'.parent = some b)
    ∧ (((b.space_left).isSome ↔ b.spaceInd % b.n ≠ 0)
      ∧ ∀ b', b.space_left = some b' →
          b'.tiles = swapTiles b.tiles (b.spaceInd - 1) b.spaceInd
          ∧ b'.tiles.Perm b.tiles ∧ b'.spaceInd = b.spaceInd - 1
          ∧ b'.depth = b.depth + 1 ∧ b'.parent = some b)
    ∧ (((b.space_right).isSome ↔ b.spaceInd % b.n ≠ b.n - 1)
      ∧ ∀ b', b.space_right = some b' →
          b'.tiles = swapTiles b.tiles b.spaceInd (b.spaceInd + 1)
          ∧ b'.tiles.Perm b.tiles ∧ b'.spaceInd = b.spaceInd + 1
          ∧ b'.depth = b.depth + 1 ∧ b'.parent = some b) := by
  obtain ⟨h0, hlen, hsp, hblank⟩ := h
  have hpow : b.n ^ 2 = b.n * b.n := pow_two b.n
  refine ⟨⟨?_, ?_⟩, ⟨?_, ?_⟩, ⟨?_, ?_⟩, ⟨?_, ?_⟩⟩
  · by_cases hc : b.n ≤ b.spaceInd
    · simp only [space_up_some b hc, Option.isSome_some, true_iff]
      rw [Ne, Nat.div_eq_zero_iff h0]
      omega
    · rw [space_up_none b hc]
      constructor
      · intro hsome
        simp at hsome
      · intro hne
        exfalso
        rw [Ne, Nat.div_eq_zero_iff h0] at hne
        omega
  · intro b' hb'
    by_cases hc : b.n ≤ b.spaceInd
    · rw [space_up_some b hc] at hb'
      injection hb' with hx
      subst hx
      have hij : b.spaceInd - b.n < b.spaceInd := by omega
      have hj : b.spaceInd < b.tiles.length := by omega
      have hswap := sliceSwap_eq_swapTiles b.tiles _ _ hij hj
      refine ⟨hswap, ?_, rfl, rfl, rfl⟩
      show (SlideBoard.sliceSwap b.tiles (b.spaceInd - b.n) b.spaceInd).Perm b.tiles
      rw [hswap]
      exact swapTiles_perm b.tiles _ _ hij hj
    · rw [space_up_none b hc] at hb'
      exact absurd hb' (by simp)
  · by_cases hc : b.spaceInd < b.n ^ 2 - b.n
    · simp only [space_down_some b hc, Option.isSome_some, true_iff]
      exact (down_edge h0 hsp).mp (by omega)
    · rw [space_down_none b hc]
      constructor
      · intro hsome
        simp at hsome
      · intro hne
        exact absurd (show b.spaceInd < b.n ^ 2 - b.n by
          have := (down_edge h0 hsp).mpr hne; omega) hc
  · intro b' hb'
    by_cases hc : b.spaceInd < b.n ^ 2 - b.n
    · rw [space_down_some b hc] at hb'
      injection hb' with hx
      subst hx
      have hij : b.spaceInd < b.spaceInd + b.n := by omega
      have hj : b.spaceInd + b.n < b.tiles.length := by omega
      have hswap := sliceSwap_eq_swapTiles b.tiles _ _ hij hj
      refine ⟨hswap, ?_, rfl, rfl, rfl⟩
      show (SlideBoard.sliceSwap b.tiles b.spaceInd (b.spaceInd + b.n)).Perm b.tiles
      rw [hswap]
      exact swapTiles_perm b.tiles _ _ hij hj
    · rw [space_down_none b hc] at hb'
      exact absurd hb' (by simp)
  · by_cases hc : b.spaceInd % b.n ≠ 0
    · simp only [space_left_some b hc, Option.isSome_some, true_iff]
      exact hc
    · rw [space_left_none b hc]
      constructor
      · intro hsome
        simp at hsome
      · intro hne
        exact absurd hne hc
  · intro b' hb'
    by_cases hc : b.spaceInd % b.n ≠ 0
    · rw [space_left_some b hc] at hb'
      injection hb' with hx
      subst hx
      have hs0 : b.spaceInd ≠ 0 := fun hz => hc (by simp [hz])
      have hij : b.spaceInd - 1 < b.spaceInd := by omega
      have hj : b.spaceInd < b.tiles.length := by omega
      have hswap := sliceSwap_eq_swapTiles b.tiles _ _ hij hj
      refine ⟨hswap, ?_, rfl, rfl, rfl⟩
      show (SlideBoard.sliceSwap b.tiles (b.spaceInd - 1) b.spaceInd).Perm b.tiles
      rw [hswap]
      exact swapTiles_perm b.tiles _ _ hij hj
    · rw [space_left_none b hc] at hb'
      exact absurd hb' (by simp)
  · by_cases hc : b.spaceInd % b.n ≠ b.n - 1
    · simp only [space_right_some b hc, Option.isSome_some, true_iff]
      exact hc
    · rw [space_right_none b hc]
      constructor
      · intro hsome
        simp at hsome
      · intro hne
        exact absurd hne hc
  · intro b' hb'
    by_cases hc : b.spaceInd % b.n ≠ b.n - 1
    · rw [space_right_some b hc] at hb'
      injection hb' with hx
      subst hx
      have hij : b.spaceInd < b.spaceInd + 1 := by omega
      have hj : b.spaceInd + 1 < b.tiles.length := by
        have := right_bound h0 hsp hc
        omega
      have hswap := sliceSwap_eq_swapTiles b.tiles _ _ hij hj
      refine ⟨hswap, ?_, rfl, rfl, rfl⟩
      show (SlideBoard.sliceSwap b.tiles b.spaceInd (b.spaceInd + 1)).Perm b.tiles
      rw [hswap]
      exact swapTiles_perm b.tiles _ _ hij hj
    · rw [space_right_none b hc] at hb'
      exact absurd hb' (by simp)

/-- Applying the slice-based swap twice restores the tile string. -/
theorem sliceSwap_sliceSwap (l : Tiles) (i j : Nat) (hij : i < j) (hj : j < l.length) :
    SlideBoard.sliceSwap (SlideBoard.sliceSwap l i j) i j = l := by
  have h1 := sliceSwap_eq_swapTiles l i j hij hj
  have hperm : (swapTiles l i j).Perm l := swapTiles_perm l i j hij hj
  have hlen : (SlideBoard.sliceSwap l i j).length = l.length := by
    rw [h1]
    exact hperm.length_eq
  have h2 := sliceSwap_eq_swapTiles (SlideBoard.sliceSwap l i j) i j hij (by omega)
  rw [h2, h1]
  exact swapTiles_swapTiles l i j (by omega) (by omega) hj

/-- After a legal left move the blank is not in the last column. -/
theorem left_then_right {w s : Nat} (h0 : 0 < w) (hm : s % w ≠ 0) :
    (s - 1) % w ≠ w - 1 := by
  have h1 : s % w < w := Nat.mod_lt _ h0
  have hdm := Nat.div_add_mod s w
  have heq : (s - 1) % w = s % w - 1 := by
    rw [show s - 1 = w * (s / w) + (s % w - 1) by omega, Nat.mul_add_mod]
    exact Nat.mod_eq_of_lt (by omega)
  omega

/-- After a legal right move the blank is not in the first column. -/
theorem right_then_left {w s : Nat} (h0 : 0 < w) (hm : s % w ≠ w - 1) :
    (s + 1) % w ≠ 0 := by
  have h1 : s % w < w := Nat.mod_lt _ h0
  have hdm := Nat.div_add_mod s w
  have heq : (s + 1) % w = s % w + 1 := by
    rw [show s + 1 = w * (s / w) + (s % w + 1) by omega, Nat.mul_add_mod]
    exact Nat.mod_eq_of_lt (by omega)
  omega

/-- **C10** For every valid state, a successful move followed by the
opposite move succeeds and restores the tile string, at depth + 2. -/
theorem c10_move_roundtrip (b : SlideBoard) (h : Valid b) :
    (∀ b', b.space_up = some b' → ∃ b'', b'.space_down = some b''
        ∧ b''.tiles = b.tiles ∧ b''.depth = b.depth + 2)
    ∧ (∀ b', b.space_down = some b' → ∃ b'', b'.space_up = some b''
        ∧ b''.tiles = b.tiles ∧ b''.depth = b.depth + 2)
    ∧ (∀ b', b.space_left = some b' → ∃ b'', b'.space_right = some b''
        ∧ b''.tiles = b.tiles ∧ b''.depth = b.depth + 2)
    ∧ (∀ b', b.space_right = some b' → ∃ b'', b'.space_left = some b''
        ∧ b''.tiles = b.tiles ∧ b''.depth = b.depth + 2) := by
  obtain ⟨h0, hlen, hsp, hblank⟩ := h
  have hpow : b.n ^ 2 = b.n * b.n := pow_two b.n
  refine ⟨?_, ?_, ?_, ?_⟩
  · intro b' hb'
    by_cases hc : b.n ≤ b.spaceInd
    · rw [space_up_some b hc] at hb'
      injection hb' with hx
      subst hx
      have hin : b.spaceInd - b.n + b.n = b.spaceInd := Nat.sub_add_cancel hc
      have hc2 : (SlideBoard.mk (SlideBoard.sliceSwap b.tiles (b.spaceInd - b.n) b.spaceInd)
          b.n (b.spaceInd - b.n) (b.depth + 1) (some b) none).spaceInd
          < (SlideBoard.mk (SlideBoard.sliceSwap b.tiles (b.spaceInd - b.n) b.spaceInd)
          b.n (b.spaceInd - b.n) (b.depth + 1) (some b) none).n ^ 2
          - (SlideBoard.mk (SlideBoard.sliceSwap b.tiles (b.spaceInd - b.n) b.spaceInd)
          b.n (b.spaceInd - b.n) (b.depth + 1) (some b) none).n := by
        show b.spaceInd - b.n < b.n ^ 2 - b.n
        omega
      refine ⟨_, space_down_some _ hc2, ?_, rfl⟩
      show SlideBoard.sliceSwap (SlideBoard.sliceSwap b.tiles (b.spaceInd - b.n) b.spaceInd)
        (b.spaceInd - b.n) (b.spaceInd - b.n + b.n) = b.tiles
      rw [hin]
      exact sliceSwap_sliceSwap b.tiles _ _ (by omega) (by omega)
    · rw [space_up_none b hc] at hb'
      exact absurd hb' (by simp)
  · intro b' hb'
    by_cases hc : b.spaceInd < b.n ^ 2 - b.n
    · rw [space_down_some b hc] at hb'
      injection hb' with hx
      subst hx
      have hin : b.spaceInd + b.n - b.n = b.spaceInd := by omega
      have hc2 : (SlideBoard.mk (SlideBoard.sliceSwap b.tiles b.spaceInd (b.spaceInd + b.n))
          b.n (b.spaceInd + b.n) (b.depth + 1) (some b) none).n
          ≤ (SlideBoard.mk (SlideBoard.sliceSwap b.tiles b.spaceInd (b.spaceInd + b.n))
          b.n (b.spaceInd + b.n) (b.depth + 1) (some b) none).spaceInd := by
        show b.n ≤ b.spaceInd + b.n
        omega
      refine ⟨_, space_up_some _ hc2, ?_, rfl⟩
      show SlideBoard.sliceSwap (SlideBoard.sliceSwap b.tiles b.spaceInd (b.spaceInd + b.n))
        (b.spaceInd + b.n - b.n) (b.spaceInd + b.n) = b.tiles
      rw [hin]
      exact sliceSwap_sliceSwap b.tiles _ _ (by omega) (by omega)
    · rw [space_down_none b hc] at hb'
      exact absurd hb' (by simp)
  · intro b' hb'
    by_cases hc : b.spaceInd % b.n ≠ 0
    · rw [space_left_some b hc] at hb'
      injection hb' with hx
      subst hx
      have hs0 : b.spaceInd ≠ 0 := fun hz => hc (by simp [hz])
      have hin : b.spaceInd - 1 + 1 = b.spaceInd := by omega
      have hc2 : (SlideBoard.mk (SlideBoard.sliceSwap b.tiles (b.spaceInd - 1) b.spaceInd)
          b.n (b.spaceInd - 1) (b.depth + 1) (some b) none).spaceInd
          % (SlideBoard.mk (SlideBoard.sliceSwap b.tiles (b.spaceInd - 1) b.spaceInd)
          b.n (b.spaceInd - 1) (b.depth + 1) (some b) none).n
          ≠ (SlideBoard.mk (SlideBoard.sliceSwap b.tiles (b.spaceInd - 1) b.spaceInd)
          b.n (b.spaceInd - 1) (b.depth + 1) (some b) none).n - 1 := by
        show (b.spaceInd - 1) % b.n ≠ b.n - 1
        exact left_then_right h0 hc
      refine ⟨_, space_right_some _ hc2, ?_, rfl⟩
      show SlideBoard.sliceSwap (SlideBoard.sliceSwap b.tiles (b.spaceInd - 1) b.spaceInd)
        (b.spaceInd - 1) (b.spaceInd - 1 + 1) = b.tiles
      rw [hin]
      exact sliceSwap_sliceSwap b.tiles _ _ (by omega) (by omega)
    · rw [space_left_none b hc] at hb'
      exact absurd hb' (by simp)
  · intro b' hb'
    by_cases hc : b.spaceInd % b.n ≠ b.n - 1
    · rw [space_right_some b hc] at hb'
      injection hb' with hx
      subst hx
      have hb1 : b.spaceInd + 1 < b.n * b.n := right_bound h0 hsp hc
      have hc2 : (SlideBoard.mk (SlideBoard.sliceSwap b.tiles b.spaceInd (b.spaceInd + 1))
          b.n (b.spaceInd + 1) (b.depth + 1) (some b) none).spaceInd
          % (SlideBoard.mk (SlideBoard.sliceSwap b.tiles b.spaceInd (b.spaceInd + 1))
          b.n (b.spaceInd + 1) (b.depth + 1) (some b) none).n ≠ 0 := by
        show (b.spaceInd + 1) % b.n ≠ 0
        exact right_then_left h0 hc
      refine ⟨_, space_left_some _ hc2, ?_, rfl⟩
      show SlideBoard.sliceSwap (SlideBoard.sliceSwap b.tiles b.spaceInd (b.spaceInd + 1))
        (b.spaceInd + 1 - 1) (b.spaceInd + 1) = b.tiles
      exact sliceSwap_sliceSwap b.tiles _ _ (by omega) (by omega)
    · rw [space_right_none b hc] at hb'
      exact absurd hb' (by simp)

/-- **C3** `create` fails exactly for non-positive size, wrong length,
missing blank, or a duplicate symbol; on success the tile string
round-trips exactly, with depth 0 and absent parent. -/
theorem c3_create_spec (s : Tiles) (nArg : Int) :
    ((∃ msg, SlideBoard.create s nArg = .error msg)
      ↔ nArg ≤ 0 ∨ (s.length : Int) ≠ nArg * nArg ∨ blankChar ∉ s ∨ ¬ s.Nodup)
    ∧ ∀ b, SlideBoard.create s nArg = .ok b →
        b.tiles = s ∧ b.depth = 0 ∧ b.parent = none := by
  by_cases h1 : nArg ≤ 0
  · exact ⟨⟨fun _ => Or.inl h1,
      fun _ => ⟨"Board size must be positive.", by simp [SlideBoard.create, h1]⟩⟩,
      fun b hb => by simp [SlideBoard.create, h1] at hb⟩
  by_cases h2 : (s.length : Int) ≠ nArg * nArg
  · exact ⟨⟨fun _ => Or.inr (Or.inl h2),
      fun _ => ⟨"An n x n board must specify n^2 spaces.",
        by simp [SlideBoard.create, h1, h2]⟩⟩,
      fun b hb => by simp [SlideBoard.create, h1, h2] at hb⟩
  by_cases h3 : blankChar ∉ s
  · exact ⟨⟨fun _ => Or.inr (Or.inr (Or.inl h3)),
      fun _ => ⟨"A board must include a blank space (space key).",
        by simp [SlideBoard.create, h1, h2, h3]⟩⟩,
      fun b hb => by simp [SlideBoard.create, h1, h2, h3] at hb⟩
  by_cases h4 : ¬ s.Nodup
  · exact ⟨⟨fun _ => Or.inr (Or.inr (Or.inr h4)),
      fun _ => ⟨"A board must have no duplicate tiles.",
        by simp [SlideBoard.create, h1, h2, h3, h4]⟩⟩,
      fun b hb => by simp [SlideBoard.create, h1, h2, h3, h4] at hb⟩
  have hok : SlideBoard.create s nArg
      = .ok (.mk s nArg.toNat (s.indexOf blankChar) 0 none none) := by
    simp [SlideBoard.create, h1, h2, h3, h4]
  refine ⟨⟨fun hex => ?_, fun hd => ?_⟩, fun b hb => ?_⟩
  · obtain ⟨msg, hmsg⟩ := hex
    rw [hok] at hmsg
    simp at hmsg
  · exact (hd.elim h1 (fun hd2 => hd2.elim h2 (fun hd3 => hd3.elim h3 h4))).elim
  · rw [hok] at hb
    injection hb with hx
    subst hx
    exact ⟨rfl, rfl, rfl⟩

/-- Witness for C3: the created 2 by 2 start state round-trips. -/
theorem c3_create_spec_witness :
    start21.tiles = ['2','1',' ','3'] ∧ start21.depth = 0 ∧ start21.parent = none :=
  (c3_create_spec ['2','1',' ','3'] 2).2 start21 rfl

/-- `mdAux` is a sum of absolute values, hence non-negative. -/
theorem mdAux_nonneg (w : Nat) (g : Tiles) : ∀ (i : Nat) (l : Tiles),
    0 ≤ SlideBoard.mdAux w g i l
  | _, [] => le_refl 0
  | i, t :: rest => by
    have ih := mdAux_nonneg w g (i + 1) rest
    unfold SlideBoard.mdAux
    have h1 : (0 : Int) ≤ (if t = blankChar then 0
        else SlideBoard.tileDist w i (g.indexOf t)) := by
      split
      · exact le_refl 0
      · unfold SlideBoard.tileDist
        exact add_nonneg (Int.ofNat_nonneg _) (Int.ofNat_nonneg _)
    omega

/-- `mdAux` equals the sum of per-tile distances over the enumerated
non-blank tiles. -/
theorem mdAux_eq_sum (w : Nat) (g : Tiles) : ∀ (i : Nat) (l : Tiles),
    SlideBoard.mdAux w g i l = (((l.enumFrom i).filter
      (fun p => p.2 ≠ blankChar)).map
      (fun p => SlideBoard.tileDist w p.1 (g.indexOf p.2))).sum
  | _, [] => by simp [SlideBoard.mdAux]
  | i, t :: rest => by
    have ih := mdAux_eq_sum w g (i + 1) rest
    by_cases ht : t = blankChar
    · simp [SlideBoard.mdAux, ht, List.enumFrom_cons, ih]
    · simp [SlideBoard.mdAux, ht, List.enumFrom_cons, ih]

/-- **C6** `generate_heuristic` stores the Manhattan distance, which is a
non-negative integer equal to the sum over all non-blank symbols of
`|Δrow| + |Δcol|` between the symbol's positions in the receiver and in
the goal. -/
theorem c6_heuristic_spec (b goal : SlideBoard) (_h : 0 < b.n) :
    (b.generate_heuristic goal).heuristic
      = some (SlideBoard.manhattan_distance b goal)
    ∧ 0 ≤ SlideBoard.manhattan_distance b goal
    ∧ SlideBoard.manhattan_distance b goal = specManhattan b goal := by
  refine ⟨?_, mdAux_nonneg _ _ 0 _, ?_⟩
  · cases b
    rfl
  · unfold SlideBoard.manhattan_distance specManhattan
    rw [List.enum_eq_enumFrom, mdAux_eq_sum]
    rfl

/-- Witness for C6 at a concrete pair of states. -/
theorem c6_heuristic_spec_witness :
    0 < start21.n
    ∧ ((start21.generate_heuristic goal2).heuristic
        = some (SlideBoard.manhattan_distance start21 goal2)
      ∧ 0 ≤ SlideBoard.manhattan_distance start21 goal2
      ∧ SlideBoard.manhattan_distance start21 goal2 = specManhattan start21 goal2) :=
  ⟨by decide, c6_heuristic_spec start21 goal2 (by decide)⟩

/-- **C7** Two states compare equal iff their tile strings are equal
(depth, parent and cached heuristic are irrelevant), and equal tile
strings give equal hash values. -/
theorem c7_eq_hash (a b : SlideBoard) :
    (SlideBoard.beq a b = true ↔ a.tiles = b.tiles)
    ∧ (a.tiles = b.tiles → SlideBoard.hashVal a = SlideBoard.hashVal b) := by
  constructor
  · simp [SlideBoard.beq]
  · intro ht
    unfold SlideBoard.hashVal
    rw [ht]

/-- The ordering invariant of the timestamped priority-queue list: any
earlier (leftward) entry has strictly larger score, or equal score and a
strictly later timestamp. -/
def PQRel {α : Type} (f : α → Int) (p q : Nat × α) : Prop :=
  f q.2 < f p.2 ∨ (f p.2 = f q.2 ∧ q.1 < p.1)

/-- Membership in an `insortLeft` result. -/
theorem mem_insortLeft {α : Type} (key : α → Int) (x : α) :
    ∀ (l : List α) (y : α), y ∈ insortLeft key x l ↔ y = x ∨ y ∈ l
  | [], y => by simp [insortLeft]
  | z :: zs, y => by
    unfold insortLeft
    split
    · simp [List.mem_cons]
    · have ih := mem_insortLeft key x zs y
      simp only [List.mem_cons, ih]
      tauto

/-- `insort_left` with the negated score as key preserves the ordering
invariant when the inserted timestamp is fresh. -/
theorem pairwise_insort {α : Type} (f : α → Int) (t : Nat) (x : α) :
    ∀ (l : List (Nat × α)), l.Pairwise (PQRel f) → (∀ p ∈ l, p.1 < t) →
      (insortLeft (fun p => -(f p.2)) (t, x) l).Pairwise (PQRel f)
  | [], _, _ => by simp [insortLeft]
  | y :: ys, hp, ht => by
    obtain ⟨hy, hys⟩ := List.pairwise_cons.mp hp
    unfold insortLeft
    split
    · rename_i hkey
      have hfy : f y.2 ≤ f x := by
        simp only at hkey
        omega
      refine List.pairwise_cons.mpr ⟨?_, hp⟩
      intro q hq
      have hqle : f q.2 ≤ f x := by
        rcases List.mem_cons.mp hq with rfl | hq2
        · exact hfy
        · rcases hy q hq2 with hlt | ⟨heq, _⟩
          · exact le_of_lt (lt_of_lt_of_le hlt hfy)
          · omega
      have hqt : q.1 < t := ht q hq
      rcases lt_or_eq_of_le hqle with hlt | heq
      · exact Or.inl hlt
      · exact Or.inr ⟨heq.symm, hqt⟩
    · rename_i hkey
      have hfy : f x < f y.2 := by
        simp only at hkey
        omega
      have ih := pairwise_insort f t x ys hys
        (fun p hp2 => ht p (List.mem_cons_of_mem _ hp2))
      refine List.pairwise_cons.mpr ⟨?_, ih⟩
      intro q hq
      rcases (mem_insortLeft _ _ ys q).mp hq with rfl | hq2
      · exact Or.inl hfy
      · exact hy q hq2

/-- `insort_left` keeps all timestamps below the bumped counter. -/
theorem insort_timestamps {α : Type} (f : α → Int) (t : Nat) (x : α)
    (l : List (Nat × α)) (ht : ∀ p ∈ l, p.1 < t) :
    ∀ q ∈ insortLeft (fun p => -(f p.2)) (t, x) l, q.1 < t + 1 := by
  intro q hq
  rcases (mem_insortLeft _ _ l q).mp hq with rfl | hq2
  · omega
  · exact lt_trans (ht q hq2) (by omega)

/-- `popRight` returns the last element and the remaining prefix. -/
theorem popRight_eq {α : Type} (l : List α) (p : α × List α)
    (h : popRight l = some p) : p.2 = l.dropLast ∧ l = l.dropLast ++ [p.1] := by
  unfold popRight at h
  cases hl : l.getLast? with
  | none => rw [hl] at h; simp at h
  | some a =>
    rw [hl] at h
    injection h with h2
    obtain ⟨ys, hys⟩ := List.getLast?_eq_some_iff.mp hl
    subst h2
    constructor
    · rfl
    · rw [hys]
      simp

/-- The sortedness-plus-fresh-timestamps invariant of the model. -/
def PQInv {α : Type} (f : α → Int) (s : Nat × List (Nat × α)) : Prop :=
  s.2.Pairwise (PQRel f) ∧ ∀ p ∈ s.2, p.1 < s.1

/-- Every `PriorityQueue` operation preserves the invariant. -/
theorem pqStep_inv {α : Type} (f : α → Int) (s : Nat × List (Nat × α))
    (op : PQOp α) (h : PQInv f s) : PQInv f (pqStep f s op) := by
  obtain ⟨t, l⟩ := s
  obtain ⟨hpw, ht⟩ := h
  cases op with
  | add x =>
    exact ⟨pairwise_insort f t x l hpw ht, insort_timestamps f t x l ht⟩
  | remove =>
    show PQInv f (match popRight l with
      | none => (t, l)
      | some p => (t, p.2))
    cases hpop : popRight l with
    | none => exact ⟨hpw, ht⟩
    | some p =>
      obtain ⟨hp2, -⟩ := popRight_eq l p hpop
      refine ⟨?_, ?_⟩
      · show p.2.Pairwise (PQRel f)
        rw [hp2]
        exact List.Pairwise.sublist (List.dropLast_sublist l) hpw
      · intro q hq
        rw [hp2] at hq
        exact ht q ((List.dropLast_sublist l).subset hq)

/-- The invariant holds after any operation sequence from the empty queue. -/
theorem pqRun_inv {α : Type} (f : α → Int) (ops : List (PQOp α)) :
    PQInv f (pqRun f ops) := by
  have key : ∀ (rest : List (PQOp α)) (s : Nat × List (Nat × α)), PQInv f s →
      PQInv f (List.foldl (pqStep f) s rest) := by
    intro rest
    induction rest with
    | nil => exact fun s hs => hs
    | cons op rest2 ih =>
      intro s hs
      exact ih _ (pqStep_inv f s op hs)
  exact key ops (0, []) ⟨List.Pairwise.nil, by simp⟩

/-- **C1** After any sequence of add/remove operations, if the priority
queue is non-empty then `remove` (pop from the right) returns an entry of
minimal `f`-value, and among equal `f`-values the one with the smallest
(earliest) insertion timestamp. -/
theorem c1_pq_stable_min {α : Type} (f : α → Int) (ops : List (PQOp α))
    (h : (pqRun f ops).2 ≠ []) :
    ∃ e rest, popRight (pqRun f ops).2 = some (e, rest)
      ∧ (pqRun f ops).2 = rest ++ [e]
      ∧ (∀ p ∈ (pqRun f ops).2, f e.2 ≤ f p.2)
      ∧ (∀ p ∈ rest, f p.2 = f e.2 → e.1 < p.1) := by
  obtain ⟨hpw, -⟩ := pqRun_inv f ops
  have hlast := List.getLast?_eq_getLast (pqRun f ops).2 h
  have hpop : popRight (pqRun f ops).2
      = some ((pqRun f ops).2.getLast h, (pqRun f ops).2.dropLast) := by
    unfold popRight
    rw [hlast]
  have hdecomp : (pqRun f ops).2
      = (pqRun f ops).2.dropLast ++ [(pqRun f ops).2.getLast h] :=
    (List.dropLast_append_getLast h).symm
  have hpw2 : ((pqRun f ops).2.dropLast
      ++ [(pqRun f ops).2.getLast h]).Pairwise (PQRel f) := by
    rw [← hdecomp]
    exact hpw
  have hrel : ∀ p ∈ (pqRun f ops).2.dropLast,
      PQRel f p ((pqRun f ops).2.getLast h) := by
    intro p hp
    exact (List.pairwise_append.mp hpw2).2.2 p hp _ (by simp)
  refine ⟨(pqRun f ops).2.getLast h, (pqRun f ops).2.dropLast, hpop, hdecomp, ?_, ?_⟩
  · intro p hp
    rw [hdecomp] at hp
    rcases List.mem_append.mp hp with hp2 | hp2
    · rcases hrel p hp2 with hlt | ⟨heq, -⟩
      · exact le_of_lt hlt
      · omega
    · have : p = (pqRun f ops).2.getLast h := by simpa using hp2
      rw [this]
  · intro p hp heq
    rcases hrel p hp with hlt | ⟨-, hts⟩
    · omega
    · exact hts

/-- Witness for C1: two equal-score entries; the pop returns the first
inserted one (timestamp 0). -/
theorem c1_pq_stable_min_witness :
    (pqRun (fun _ => (0 : Int)) [PQOp.add 10, PQOp.add 20]).2 ≠ []
    ∧ popRight (pqRun (fun _ => (0 : Int)) [PQOp.add 10, PQOp.add 20]).2
      = some ((0, 10), [(1, 20)]) := by
  refine ⟨by decide, ?_⟩
  obtain ⟨e, rest, h1, -, -, -⟩ := c1_pq_stable_min (fun _ => (0 : Int))
    [PQOp.add 10, PQOp.add 20] (by decide)
  have h2 : popRight (pqRun (fun _ => (0 : Int)) [PQOp.add 10, PQOp.add 20]).2
      = some ((0, 10), [(1, 20)]) := rfl
  exact h2

/-- The high-water update `if m < sz then sz else m` is `max`. -/
theorem ite_max (a b : Nat) : (if a < b then b else a) = max a b := by
  rcases Nat.lt_or_ge a b with h | h
  · simp [h, Nat.max_eq_right (le_of_lt h)]
  · have h2 : ¬ a < b := Nat.not_lt.mpr h
    simp [h2, Nat.max_eq_left h]

/-- Folding `max` from a joined seed. -/
theorem foldr_max_init (L : List Nat) (a b : Nat) :
    L.foldr max (max a b) = max b (L.foldr max a) := by
  induction L with
  | nil => exact Nat.max_comm a b
  | cons c L2 ih =>
    simp only [List.foldr_cons, ih]
    exact Nat.max_left_comm c b (L2.foldr max a)

/-- The seed bounds a `max` fold from below. -/
theorem le_foldr_max (L : List Nat) (a : Nat) : a ≤ L.foldr max a := by
  induction L with
  | nil => exact le_refl a
  | cons c L2 ih => exact le_trans ih (Nat.le_max_right c _)

/-- `insort_left` grows the list by one. -/
theorem length_insortLeft {α : Type} (key : α → Int) (x : α) :
    ∀ l : List α, (insortLeft key x l).length = l.length + 1
  | [] => rfl
  | y :: ys => by
    unfold insortLeft
    split
    · simp
    · simp [length_insortLeft key x ys]

/-- Generic statistics lemma: for any fringe strategy whose `_add` grows
the container by one and whose `_remove` never grows it, `_num_created`
counts the adds and `_max_fringe` is the running maximum of the sizes
reached. -/
theorem runFringe_stats {σ : Type} (ops : FringeOps σ) (goal : SlideBoard)
    (hadd : ∀ s x, ops.sizeImpl (ops.addImpl s x) = ops.sizeImpl s + 1)
    (hrem : ∀ s p, ops.removeImpl s = some p → ops.sizeImpl p.2 ≤ ops.sizeImpl s) :
    ∀ (l : List FOp) (fs : FringeState σ), ops.sizeImpl fs.inner ≤ fs.max_fringe →
      (runFringe ops goal l fs).num_created = fs.num_created + countAdds l
      ∧ (runFringe ops goal l fs).max_fringe
          = (futureSizes ops goal l fs).foldr max fs.max_fringe
  | [], fs, _ => by
    constructor
    · simp [runFringe, countAdds]
    · simp [runFringe, futureSizes]
  | op :: rest, fs, hinv => by
    have hstep : runFringe ops goal (op :: rest) fs
        = runFringe ops goal rest (fringeStep ops goal fs op) := rfl
    have hfut : futureSizes ops goal (op :: rest) fs
        = ops.sizeImpl (fringeStep ops goal fs op).inner
          :: futureSizes ops goal rest (fringeStep ops goal fs op) := rfl
    cases op with
    | add b =>
      have hsz : ops.sizeImpl (fringeStep ops goal fs (FOp.add b)).inner
          = ops.sizeImpl fs.inner + 1 := hadd fs.inner _
      have hnum : (fringeStep ops goal fs (FOp.add b)).num_created
          = fs.num_created + 1 := rfl
      have hmax : (fringeStep ops goal fs (FOp.add b)).max_fringe
          = max fs.max_fringe (ops.sizeImpl (fringeStep ops goal fs (FOp.add b)).inner) :=
        ite_max _ _
      have hinv2 : ops.sizeImpl (fringeStep ops goal fs (FOp.add b)).inner
          ≤ (fringeStep ops goal fs (FOp.add b)).max_fringe := by
        rw [hmax]
        exact Nat.le_max_right _ _
      obtain ⟨ihnum, ihmax⟩ := runFringe_stats ops goal hadd hrem rest _ hinv2
      constructor
      · rw [hstep, ihnum, hnum]
        show fs.num_created + 1 + (countAdds rest : Int)
          = fs.num_created + (countAdds (FOp.add b :: rest) : Int)
        have : countAdds (FOp.add b :: rest) = countAdds rest + 1 := rfl
        rw [this]
        push_cast
        omega
      · rw [hstep, ihmax, hfut, List.foldr_cons, hmax, foldr_max_init]
    | remove =>
      have hkey : (fringeStep ops goal fs FOp.remove).num_created = fs.num_created
          ∧ (fringeStep ops goal fs FOp.remove).max_fringe = fs.max_fringe
          ∧ ops.sizeImpl (fringeStep ops goal fs FOp.remove).inner
            ≤ ops.sizeImpl fs.inner := by
        show (match Fringe.remove ops fs with
          | none => fs
          | some p => p.2).num_created = fs.num_created
          ∧ (match Fringe.remove ops fs with
          | none => fs
          | some p => p.2).max_fringe = fs.max_fringe
          ∧ ops.sizeImpl (match Fringe.remove ops fs with
          | none => fs
          | some p => p.2).inner ≤ ops.sizeImpl fs.inner
        cases hrm : Fringe.remove ops fs with
        | none => exact ⟨rfl, rfl, le_refl _⟩
        | some p =>
          unfold Fringe.remove at hrm
          split at hrm
          · obtain ⟨q, hq, hq2⟩ := Option.map_eq_some'.mp hrm
            rw [← hq2]
            exact ⟨rfl, rfl, hrem fs.inner q hq⟩
          · simp at hrm
      obtain ⟨hnum, hmax, hle⟩ := hkey
      have hinv2 : ops.sizeImpl (fringeStep ops goal fs FOp.remove).inner
          ≤ (fringeStep ops goal fs FOp.remove).max_fringe := by
        rw [hmax]
        exact le_trans hle hinv
      obtain ⟨ihnum, ihmax⟩ := runFringe_stats ops goal hadd hrem rest _ hinv2
      constructor
      · rw [hstep, ihnum, hnum]
        rfl
      · rw [hstep, ihmax, hfut, List.foldr_cons, hmax]
        have hb : ops.sizeImpl (fringeStep ops goal fs FOp.remove).inner
            ≤ (futureSizes ops goal rest (fringeStep ops goal fs FOp.remove)).foldr
              max fs.max_fringe :=
          le_trans (le_trans hle hinv) (le_foldr_max _ _)
        exact (Nat.max_eq_right hb).symm

/-- **C8** For each fringe strategy of Solver.py (queue, stack, priority
queue with any scoring function) and any sequence of add/remove operations
on a freshly initialised fringe: `num_created` equals the number of adds
minus one (the root insertion is not counted), and `max_fringe` equals the
largest size the fringe ever reached. -/
theorem c8_statistics (goal : SlideBoard) (f : SlideBoard → Int) (l : List FOp) :
    ((runFringe queueOps goal l (Fringe.init queueOps)).num_created
        = (countAdds l : Int) - 1
      ∧ (runFringe queueOps goal l (Fringe.init queueOps)).max_fringe
        = (futureSizes queueOps goal l (Fringe.init queueOps)).foldr max 0)
    ∧ ((runFringe stackOps goal l (Fringe.init stackOps)).num_created
        = (countAdds l : Int) - 1
      ∧ (runFringe stackOps goal l (Fringe.init stackOps)).max_fringe
        = (futureSizes stackOps goal l (Fringe.init stackOps)).foldr max 0)
    ∧ ((runFringe (pqOps f) goal l (Fringe.init (pqOps f))).num_created
        = (countAdds l : Int) - 1
      ∧ (runFringe (pqOps f) goal l (Fringe.init (pqOps f))).max_fringe
        = (futureSizes (pqOps f) goal l (Fringe.init (pqOps f))).foldr max 0) := by
  have hq := runFringe_stats queueOps goal
    (fun s x => by simp [queueOps])
    (fun s p h => by
      cases s with
      | nil => simp [queueOps] at h
      | cons a as =>
        simp only [queueOps] at h
        injection h with h2
        rw [← h2]
        simp [queueOps])
    l (Fringe.init queueOps) (le_refl 0)
  have hs := runFringe_stats stackOps goal
    (fun s x => by simp [stackOps])
    (fun s p h => by
      obtain ⟨h2, -⟩ := popRight_eq s p h
      rw [h2]
      simp [stackOps])
    l (Fringe.init stackOps) (le_refl 0)
  have hp := runFringe_stats (pqOps f) goal
    (fun s x => by simp [pqOps, length_insortLeft])
    (fun s p h => by
      obtain ⟨h2, -⟩ := popRight_eq s p h
      rw [h2]
      simp [pqOps])
    l (Fringe.init (pqOps f)) (le_refl 0)
  obtain ⟨hq1, hq2⟩ := hq
  obtain ⟨hs1, hs2⟩ := hs
  obtain ⟨hp1, hp2⟩ := hp
  refine ⟨⟨?_, hq2⟩, ⟨?_, hs2⟩, ⟨?_, hp2⟩⟩
  · rw [hq1]
    show (-1 : Int) + countAdds l = (countAdds l : Int) - 1
    omega
  · rw [hs1]
    show (-1 : Int) + countAdds l = (countAdds l : Int) - 1
    omega
  · rw [hp1]
    show (-1 : Int) + countAdds l = (countAdds l : Int) - 1
    omega

/-- If the driver loop terminates with an absent node, the result is the
failure tuple `(None, -1, 0, 0, 0)`. -/
theorem graph_search_loop_failure {σ : Type} (ops : FringeOps σ) (goal : SlideBoard) :
    ∀ (fuel : Nat) (fs : FringeState σ) (expanded : List Tiles) (r : SearchResult),
      graph_search_loop ops goal fuel fs expanded = some r → r.node = none →
      r.depth = -1 ∧ r.num_created = 0 ∧ r.num_expanded = 0 ∧ r.max_fringe = 0
  | 0, fs, expanded, r => by
    intro h
    simp [graph_search_loop] at h
  | fuel + 1, fs, expanded, r => by
    intro h hn
    rw [graph_search_loop] at h
    cases hrm : Fringe.remove ops fs with
    | none =>
      rw [hrm] at h
      injection h with h2
      rw [← h2]
      exact ⟨rfl, rfl, rfl, rfl⟩
    | some p =>
      rw [hrm] at h
      obtain ⟨node, fs'⟩ := p
      dsimp only at h
      by_cases h1 : node.tiles ∈ expanded
      · rw [if_pos h1] at h
        exact graph_search_loop_failure ops goal fuel fs' expanded r h hn
      · rw [if_neg h1] at h
        by_cases h2 : node.tiles = goal.tiles
        · rw [if_pos h2] at h
          injection h with h3
          rw [← h3] at hn
          simp at hn
        · rw [if_neg h2] at h
          exact graph_search_loop_failure ops goal fuel _ _ r h hn

/-- **C5** The driver never produces an error value: whenever a run
terminates with an absent result state, it returns depth −1 and all three
statistics equal to zero. -/
theorem c5_failure_result {σ : Type} (ops : FringeOps σ) (start goal : SlideBoard)
    (fuel : Nat) (r : SearchResult)
    (h : graph_search ops start goal fuel = some r) (hn : r.node = none) :
    r.depth = -1 ∧ r.num_created = 0 ∧ r.num_expanded = 0 ∧ r.max_fringe = 0 :=
  graph_search_loop_failure ops goal fuel _ [] r h hn

/-- Witness for C5: an unsolvable 2 by 2 instance exhausts the fringe and
returns the failure tuple. -/
theorem c5_failure_result_witness :
    graph_search queueOps start123 goal2 100 = some ⟨none, -1, 0, 0, 0⟩
    ∧ ((⟨none, -1, 0, 0, 0⟩ : SearchResult).depth = -1
      ∧ (⟨none, -1, 0, 0, 0⟩ : SearchResult).num_created = 0
      ∧ (⟨none, -1, 0, 0, 0⟩ : SearchResult).num_expanded = 0
      ∧ (⟨none, -1, 0, 0, 0⟩ : SearchResult).max_fringe = 0) :=
  ⟨rfl, c5_failure_result queueOps start123 goal2 100 ⟨none, -1, 0, 0, 0⟩ rfl rfl⟩

/-- Fields of a successfully created board. -/
theorem create_ok_fields (s : Tiles) (nArg : Int) (b : SlideBoard)
    (h : SlideBoard.create s nArg = .ok b) :
    b.tiles = s ∧ b.depth = 0 ∧ b.parent = none := by
  unfold SlideBoard.create at h
  split_ifs at h
  injection h with h2
  rw [← h2]
  exact ⟨rfl, rfl, rfl⟩

/-- `generate_heuristic` only fills the heuristic cache; tile string,
depth, parent and the reconstructed path are unchanged. -/
theorem generate_heuristic_fields (b goal : SlideBoard) :
    (b.generate_heuristic goal).tiles = b.tiles
    ∧ (b.generate_heuristic goal).depth = b.depth
    ∧ (b.generate_heuristic goal).parent = b.parent
    ∧ (b.generate_heuristic goal).pathTiles = b.pathTiles := by
  cases b with
  | mk t w i d p hh =>
    refine ⟨rfl, rfl, rfl, ?_⟩
    cases p <;> rfl

/-- A root state's reconstructed path is the single tile string. -/
theorem pathTiles_root (b : SlideBoard) (h : b.parent = none) :
    b.pathTiles = [b.tiles] := by
  cases b with
  | mk t w i d p hh =>
    cases p with
    | none => rfl
    | some q => simp [SlideBoard.parent] at h

/-- When the start equals the goal, one loop iteration returns it with its
own depth and statistics `(0, 0, 1)`, for any conforming fringe. -/
theorem graph_search_trivial {σ : Type} (ops : FringeOps σ)
    (start goal : SlideBoard) (fuel : Nat) (rest : σ)
    (hsz : ops.sizeImpl (ops.addImpl ops.emptyImpl
      (if ops.uses_heuristic then start.generate_heuristic goal else start)) = 1)
    (hrm : ops.removeImpl (ops.addImpl ops.emptyImpl
      (if ops.uses_heuristic then start.generate_heuristic goal else start))
      = some ((if ops.uses_heuristic then start.generate_heuristic goal else start), rest))
    (ht : start.tiles = goal.tiles) :
    graph_search ops start goal (fuel + 1)
      = some ⟨some (if ops.uses_heuristic then start.generate_heuristic goal else start),
          (((if ops.uses_heuristic then start.generate_heuristic goal
            else start).depth : Int)), 0, 0, 1⟩ := by
  have hst : (if ops.uses_heuristic then start.generate_heuristic goal
      else start).tiles = start.tiles := by
    split
    · exact (generate_heuristic_fields start goal).1
    · rfl
  have hfs0 : Fringe.add ops (Fringe.init ops) start goal
      = ⟨ops.addImpl ops.emptyImpl
          (if ops.uses_heuristic then start.generate_heuristic goal else start), 0, 1⟩ := by
    simp only [Fringe.add, Fringe.init]
    rw [hsz]
    norm_num
  have hrem : Fringe.remove ops
      ⟨ops.addImpl ops.emptyImpl
        (if ops.uses_heuristic then start.generate_heuristic goal else start), 0, 1⟩
      = some ((if ops.uses_heuristic then start.generate_heuristic goal else start),
          ⟨rest, 0, 1⟩) := by
    simp only [Fringe.remove]
    rw [hsz]
    simp [hrm]
  show graph_search_loop ops goal (fuel + 1)
    (Fringe.add ops (Fringe.init ops) start goal) [] = _
  rw [hfs0, graph_search_loop, hrem]
  dsimp only
  rw [if_neg (by simp), if_pos (hst.trans ht)]
  rfl

/-- **C9** For every created start state whose tiles equal the goal's,
each of the four search strategies returns that configuration with result
depth 0 (statistics: 0 created, 0 expanded, max fringe 1), and the
reconstructed solution path is the single goal configuration. -/
theorem c9_trivial_search (s : Tiles) (nArg : Int) (start goal : SlideBoard)
    (fuel : Nat) (hc : SlideBoard.create s nArg = .ok start)
    (ht : goal.tiles = start.tiles) :
    (∃ nd, graph_search queueOps start goal (fuel + 1) = some ⟨some nd, 0, 0, 0, 1⟩
      ∧ nd.tiles = goal.tiles ∧ nd.depth = 0 ∧ nd.pathTiles = [goal.tiles])
    ∧ (∃ nd, graph_search stackOps start goal (fuel + 1) = some ⟨some nd, 0, 0, 0, 1⟩
      ∧ nd.tiles = goal.tiles ∧ nd.depth = 0 ∧ nd.pathTiles = [goal.tiles])
    ∧ (∃ nd, graph_search (pqOps gbfsF) start goal (fuel + 1)
          = some ⟨some nd, 0, 0, 0, 1⟩
      ∧ nd.tiles = goal.tiles ∧ nd.depth = 0 ∧ nd.pathTiles = [goal.tiles])
    ∧ (∃ nd, graph_search (pqOps astarF) start goal (fuel + 1)
          = some ⟨some nd, 0, 0, 0, 1⟩
      ∧ nd.tiles = goal.tiles ∧ nd.depth = 0 ∧ nd.pathTiles = [goal.tiles]) := by
  obtain ⟨hts, hdep, hpar⟩ := create_ok_fields s nArg start hc
  have hpath : start.pathTiles = [goal.tiles] := by
    rw [pathTiles_root start hpar, ht]
  have gf := generate_heuristic_fields start goal
  refine ⟨?_, ?_, ?_, ?_⟩
  · have h1 := graph_search_trivial queueOps start goal fuel [] rfl rfl ht.symm
    have hqite : (if queueOps.uses_heuristic = true
        then start.generate_heuristic goal else start) = start := rfl
    rw [hqite] at h1
    simp only [hdep, Nat.cast_zero] at h1
    exact ⟨start, h1, ht.symm, hdep, hpath⟩
  · have h1 := graph_search_trivial stackOps start goal fuel [] rfl rfl ht.symm
    have hqite : (if stackOps.uses_heuristic = true
        then start.generate_heuristic goal else start) = start := rfl
    rw [hqite] at h1
    simp only [hdep, Nat.cast_zero] at h1
    exact ⟨start, h1, ht.symm, hdep, hpath⟩
  · have h1 := graph_search_trivial (pqOps gbfsF) start goal fuel [] rfl rfl ht.symm
    have hqite : (if (pqOps gbfsF).uses_heuristic = true
        then start.generate_heuristic goal else start)
        = start.generate_heuristic goal := rfl
    rw [hqite] at h1
    simp only [gf.2.1, hdep, Nat.cast_zero] at h1
    refine ⟨start.generate_heuristic goal, h1, ?_, ?_, ?_⟩
    · rw [gf.1, ← ht]
    · rw [gf.2.1, hdep]
    · rw [gf.2.2.2, hpath]
  · have h1 := graph_search_trivial (pqOps astarF) start goal fuel [] rfl rfl ht.symm
    have hqite : (if (pqOps astarF).uses_heuristic = true
        then start.generate_heuristic goal else start)
        = start.generate_heuristic goal := rfl
    rw [hqite] at h1
    simp only [gf.2.1, hdep, Nat.cast_zero] at h1
    refine ⟨start.generate_heuristic goal, h1, ?_, ?_, ?_⟩
    · rw [gf.1, ← ht]
    · rw [gf.2.1, hdep]
    · rw [gf.2.2.2, hpath]

/-- Witness for C9 at the concrete 2 by 2 instance with start equal to the
goal configuration. -/
theorem c9_trivial_search_witness :
    SlideBoard.create ['2','1','3',' '] 2 = .ok goal2
    ∧ goal2.tiles = goal2.tiles ∧ goal2.depth = 0
    ∧ goal2.pathTiles = [goal2.tiles] := by
  obtain ⟨nd, h1, h2, h3, h4⟩ :=
    (c9_trivial_search ['2','1','3',' '] 2 goal2 goal2 0 rfl rfl).1
  have hrun : graph_search queueOps goal2 goal2 1
      = some ⟨some goal2, 0, 0, 0, 1⟩ := rfl
  rw [hrun] at h1
  injection h1 with h5
  have h6 : some goal2 = some nd := congrArg SearchResult.node h5
  injection h6 with h7
  subst h7
  exact ⟨rfl, h2, h3, h4⟩

/-- **C4 counterexample** The claim asserts that exactly one legal move
exists from the start state `"21 3"`, but two legal moves exist (up and
right). -/
theorem c4_counterexample :
    SlideBoard.create ['2','1',' ','3'] 2 = .ok start21
    ∧ (legalMoves start21).length = 2
    ∧ ¬ (legalMoves start21).length = 1 :=
  ⟨rfl, by decide, by decide⟩

/-- **C4 (amended)** On the 2 by 2 instance with start `"21 3"` and goal
`"213 "`: BFS returns depth 1 with solution path `["21 3", "213 "]`; DFS,
GBFS and A* also return depth 1; and exactly two legal moves (up and
right) exist from the start state. -/
theorem c4_example_runs :
    SlideBoard.create ['2','1',' ','3'] 2 = .ok start21
    ∧ SlideBoard.create ['2','1','3',' '] 2 = .ok goal2
    ∧ (BFS start21 goal2 30).map
        (fun r => (r.depth, r.node.map SlideBoard.pathTiles))
      = some (1, some [['2','1',' ','3'], ['2','1','3',' ']])
    ∧ (DFS start21 goal2 30).map (fun r => r.depth) = some 1
    ∧ (GBFS start21 goal2 30).map (fun r => r.depth) = some 1
    ∧ (AStar start21 goal2 30).map (fun r => r.depth) = some 1
    ∧ (legalMoves start21).length = 2
    ∧ (start21.space_up).isSome = true ∧ (start21.space_right).isSome = true
    ∧ (start21.space_down).isSome = false ∧ (start21.space_left).isSome = false :=
  ⟨rfl, rfl, by decide, by decide, by decide, by decide, by decide,
    by decide, by decide, by decide, by decide⟩

/-- Witness for C2: the start `"21 3"` is valid and its up move's
legality matches the top-edge characterisation. -/
theorem c2_move_spec_witness :
    Valid start21 ∧ ((start21.space_up).isSome ↔ start21.spaceInd / start21.n ≠ 0) :=
  ⟨by decide, (c2_move_spec start21 (by decide)).1.1⟩

/-- Witness for C10: moving up then down from `"21 3"` restores the tile
string at depth 2. -/
theorem c10_move_roundtrip_witness :
    Valid start21
    ∧ (SlideBoard.mk ['2','1',' ','3'] 2 2 2
        (some (SlideBoard.mk [' ','1','2','3'] 2 0 1 (some start21) none)) none).tiles
      = start21.tiles := by
  refine ⟨by decide, ?_⟩
  obtain ⟨b2, h1, h2, h3⟩ := (c10_move_roundtrip start21 (by decide)).1
    (SlideBoard.mk [' ','1','2','3'] 2 0 1 (some start21) none) rfl
  have h4 : (SlideBoard.mk [' ','1','2','3'] 2 0 1 (some start21) none).space_down
      = some (SlideBoard.mk ['2','1',' ','3'] 2 2 2
        (some (SlideBoard.mk [' ','1','2','3'] 2 0 1 (some start21) none)) none) := rfl
  rw [h4] at h1
  injection h1 with h5
  rw [← h5] at h2
  exact h2

/-- Witness for C7: same tiles, different depth and heuristic cache. -/
theorem c7_eq_hash_witness :
    (SlideBoard.beq (.mk ['1'] 1 0 0 none none) (.mk ['1'] 1 0 7 none (some 5)) = true)
    ∧ SlideBoard.hashVal (.mk ['1'] 1 0 0 none none)
      = SlideBoard.hashVal (.mk ['1'] 1 0 7 none (some 5)) :=
  ⟨(c7_eq_hash (.mk ['1'] 1 0 0 none none) (.mk ['1'] 1 0 7 none (some 5))).1.mpr rfl,
    (c7_eq_hash (.mk ['1'] 1 0 0 none none) (.mk ['1'] 1 0 7 none (some 5))).2 rfl⟩

end SearchAlgos
